import Mathlib

/- Verification development for ngsLD's shared/read_data.cpp: the genotype
loader `read_geno` and the position loader `read_pos`.

Representation notes.

The C code stores genotype values as IEEE doubles holding natural-log
probabilities.  We embed every stored double `d` by its probability-space
image `exp d` (`exp` is injective on the extended reals, with
`exp (-inf) = 0`, `exp (+inf) = +inf`, `exp NaN = NaN`), so the `-INF`
sentinel becomes `0`, `log 1` becomes `1`, `log (1/3)` becomes `1/3`, and the
log-space normalizer `x_i - logsum x` becomes pointwise division by the sum.
Finite values are idealized as rationals (every finite IEEE double is a
rational; rounding is not modelled).  Under this embedding a raw text field
`f` read in log scale is given directly by its probability image (any
nonnegative value, `+inf`, or NaN is realizable), while a field read in
linear scale is given by its own value and passes through `log`, whose
image clamps negative inputs to NaN and `0` to `0`.

Input streams are embedded after the I/O collaborators: a text file is a
list of lines, each line abstracted by whether it was empty after `chomp`
(strlen == 0) together with its whitespace-split tokens (`split` parses
genotype tokens to doubles and keeps position tokens as strings); a binary
file is the list of doubles `gzread` would deliver.  Collaborators that are
not part of read_data.cpp (`split`, `chomp`, `post_prob`, `strtod`,
`strtoul`, the gz stream primitives) are modelled from the spec where
marked. -/

/-- Model of an IEEE-754 double: NaN, the two infinities, or a finite value
idealized as a rational. -/
inductive DVal where
  | nan : DVal
  | pinf : DVal
  | ninf : DVal
  | fin : ℚ → DVal
deriving DecidableEq, Inhabited, Repr

/-- IEEE addition on `DVal` (used for the probability-space sum
`exp a + exp b` implementing log-space `logsum`). -/
def padd : DVal → DVal → DVal
  | .nan, _ => .nan
  | _, .nan => .nan
  | .pinf, .ninf => .nan
  | .ninf, .pinf => .nan
  | .pinf, _ => .pinf
  | _, .pinf => .pinf
  | .ninf, _ => .ninf
  | _, .ninf => .ninf
  | .fin a, .fin b => .fin (a + b)

/-- IEEE division on `DVal` (probability-space image of log-space
subtraction: `exp (x - n) = exp x / exp n`); signed zeros collapsed to `0`. -/
def pdiv : DVal → DVal → DVal
  | .nan, _ => .nan
  | _, .nan => .nan
  | .pinf, .pinf => .nan
  | .pinf, .ninf => .nan
  | .ninf, .pinf => .nan
  | .ninf, .ninf => .nan
  | .pinf, .fin b => if b < 0 then .ninf else .pinf
  | .ninf, .fin b => if b < 0 then .pinf else .ninf
  | .fin _, .pinf => .fin 0
  | .fin _, .ninf => .fin 0
  | .fin a, .fin b =>
    if b = 0 then (if a = 0 then .nan else (if a < 0 then .ninf else .pinf))
    else .fin (a / b)

/-- Probability-space image of `log x` applied to a linear-scale double `x`
(the `conv_space(..., log)` step): `log` of a negative value or of `-inf`
is NaN (image NaN), `log 0 = -inf` (image `0`), `log (+inf) = +inf`. -/
def logImage : DVal → DVal
  | .nan => .nan
  | .pinf => .pinf
  | .ninf => .nan
  | .fin q => if q < 0 then .nan else .fin q

/-- Probability-space image of the double the loader stores for one raw
field: in log scale the field is stored unchanged (the field is already
given by its probability image), otherwise `log` is applied first. -/
def storeField (logscale : Bool) (f : DVal) : DVal :=
  if logscale then f else logImage f

/-- Is this double finite? -/
def DVal.isFin : DVal → Bool
  | .fin _ => true
  | _ => false

/-- Well-formedness of a probability-space image: `exp` of a double is
never `-inf` and never negative.  Log-scale inputs are quantified over this
subdomain. -/
def wfProb : DVal → Bool
  | .nan => true
  | .pinf => true
  | .ninf => false
  | .fin q => decide (0 ≤ q)

/-- One individual's three genotype-class values (probability-space). -/
abbrev Trip := DVal × DVal × DVal

/-- Sum of the three class values (probability-space image of the log-space
`logsum` over the triple). -/
def tripSum (t : Trip) : DVal := padd (padd t.1 t.2.1) t.2.2

/-- Modelled from the spec: the external collaborator `normalize_log_triple`
(`post_prob` with a NULL prior and 3 classes), which converts a
log-probability triple to a normalized log-probability triple
(`x_i - logsum x`).  In the probability-space embedding this is pointwise
division by the triple's sum. -/
def post_prob (t : Trip) : Trip :=
  (pdiv t.1 (tripSum t), pdiv t.2.1 (tripSum t), pdiv t.2.2 (tripSum t))

/-- The binary branch's `isnan` check over the three stored values
(`exp d = NaN` exactly when `d = NaN`). -/
def tripNan (t : Trip) : Bool :=
  decide (t.1 = .nan) || decide (t.2.1 = .nan) || decide (t.2.2 = .nan)

/-- All three class values are finite. -/
def allFin (t : Trip) : Bool := t.1.isFin && t.2.1.isFin && t.2.2.isFin

/-- A pre-normalization triple that normalizes cleanly: all components
finite and a nonzero sum. -/
def goodPre (t : Trip) : Prop := allFin t = true ∧ tripSum t ≠ .fin 0

/-- Componentwise well-formed probability images. -/
def wfTrip (t : Trip) : Prop :=
  wfProb t.1 = true ∧ wfProb t.2.1 = true ∧ wfProb t.2.2 = true

/-- Errors surfaced by `read_geno` (`error(__FUNCTION__, ...)` calls). -/
inductive GenoErr where
  | truncated : GenoErr
  | nanFound : GenoErr
  | fewFields : GenoErr
  | badGenotype : GenoErr
  | trailingData : GenoErr
deriving DecidableEq, Repr

/-- A genotype text line after `chomp` and `split`: `emptyLine` records
`strlen(buf) == 0`, `fields` the whitespace-split tokens parsed as doubles
(a whitespace-only line has `emptyLine = false` and `fields = []`). -/
structure GLine where
  emptyLine : Bool
  fields : List DVal
deriving DecidableEq, Repr

/-- Fields per individual: `N_GENO = 3` in probabilistic mode, else 1. -/
def nGeno (probs : Bool) : ℕ := if probs then 3 else 1

/-- Probabilistic-mode pre-normalization triple of individual `i` from the
trailing field window `ptr` (`ptr[i*N_GENO+g]`, stored per the scale flag). -/
def probTrip (logscale : Bool) (ptr : List DVal) (i : ℕ) : Trip :=
  (storeField logscale (ptr.getD (i * 3) .nan),
   storeField logscale (ptr.getD (i * 3 + 1) .nan),
   storeField logscale (ptr.getD (i * 3 + 2) .nan))

/-- C truncation toward zero, as in the cast `(int) ptr[i]`. -/
def ctrunc (q : ℚ) : ℤ := if q < 0 then -(⌊-q⌋) else ⌊q⌋

/-- The `(int)` cast of a double.  For non-finite values the C cast is
undefined behaviour; we fix the common x86 result `INT_MIN`. -/
def dtruncInt : DVal → ℤ
  | .fin q => ctrunc q
  | _ => -2147483648

/-- Discrete-call pre-normalization triple for one individual: class `g`
gets `log 1` (image `1`) on top of the `-INF` sentinel (image `0`),
`g > 2` is a format error, `g < 0` is missing data (`log (1/3)` each). -/
def discGeno (f : DVal) : Except GenoErr Trip :=
  if 0 ≤ dtruncInt f then
    if 2 < dtruncInt f then .error .badGenotype
    else if dtruncInt f = 0 then .ok (.fin 1, .fin 0, .fin 0)
    else if dtruncInt f = 1 then .ok (.fin 0, .fin 1, .fin 0)
    else .ok (.fin 0, .fin 0, .fin 1)
  else .ok (.fin (1/3), .fin (1/3), .fin (1/3))

/-- One individual's final triple from a text data row: build the
pre-normalization triple per mode, then always renormalize via
`post_prob`. -/
def indTrip (probs logscale : Bool) (ptr : List DVal) (i : ℕ) : Except GenoErr Trip :=
  if probs then .ok (post_prob (probTrip logscale ptr i))
  else
    match discGeno (ptr.getD i .nan) with
    | .error e => .error e
    | .ok t => .ok (post_prob t)

/-- Triples of individuals `i, i+1, ..., i+k-1` from the field window. -/
def rowTripsFrom (probs logscale : Bool) (ptr : List DVal) : ℕ → ℕ → Except GenoErr (List Trip)
  | _, 0 => .ok []
  | i, k + 1 =>
    match indTrip probs logscale ptr i with
    | .error e => .error e
    | .ok t =>
      match rowTripsFrom probs logscale ptr (i + 1) k with
      | .error e => .error e
      | .ok ts => .ok (t :: ts)

/-- All `n_ind` per-individual triples of one text data row. -/
def rowTrips (probs logscale : Bool) (n_ind : ℕ) (ptr : List DVal) : Except GenoErr (List Trip) :=
  rowTripsFrom probs logscale ptr 0 n_ind

/-- The genotype matrix, indexed `[individual][site]`. -/
abbrev Mat := ℕ → ℕ → Trip

/-- The allocation `init_ptr(n_ind, n_sites+1, N_GENO, -INF)`: every entry
starts at the `-INF` sentinel (probability image `0`). -/
def initMat : Mat := fun _ _ => (.fin 0, .fin 0, .fin 0)

/-- Write one site's row of per-individual triples into the matrix. -/
def setRow (mat : Mat) (s : ℕ) (row : List Trip) : Mat :=
  fun i s' => if s' = s ∧ i < row.length then row.getD i (.fin 0, .fin 0, .fin 0) else mat i s'

/-- Ghost bookkeeping: mark site `s` as populated by a data row. -/
def setWr (wr : ℕ → Bool) (s : ℕ) : ℕ → Bool :=
  fun s' => if s' = s then true else wr s'

/-- The text-mode site loop of `read_geno` (`for s = 1..n_sites`): read one
line per iteration; an empty line `continue`s (the increment `s++` still
runs), a zero-field line is a header (`s--; continue`, so no site is
consumed), a short line is fatal, otherwise the trailing
`n_ind * n_geno` fields populate site `s`.  Running out of lines while
`s <= n_sites` is the `gzgets == NULL` error. -/
def readGenoText (probs logscale : Bool) (n_ind n_sites : ℕ) :
    ℕ → Mat → (ℕ → Bool) → List GLine → Except GenoErr (Mat × (ℕ → Bool) × List GLine)
  | s, mat, wr, [] => if n_sites < s then .ok (mat, wr, []) else .error .truncated
  | s, mat, wr, L :: rest =>
    if n_sites < s then .ok (mat, wr, L :: rest)
    else if L.emptyLine then readGenoText probs logscale n_ind n_sites (s + 1) mat wr rest
    else if L.fields.isEmpty then readGenoText probs logscale n_ind n_sites s mat wr rest
    else if L.fields.length < n_ind * nGeno probs then .error .fewFields
    else
      match rowTrips probs logscale n_ind (L.fields.drop (L.fields.length - n_ind * nGeno probs)) with
      | .error e => .error e
      | .ok row =>
        readGenoText probs logscale n_ind n_sites (s + 1) (setRow mat s row) (setWr wr s) rest

/-- One binary site: for each individual read 3 doubles (`gzread`), apply
`log` if not already log scale, normalize, and fail on any NaN.  Too few
doubles remaining is the short-`gzread` error. -/
def binRow (logscale : Bool) : ℕ → List DVal → Except GenoErr (List Trip × List DVal)
  | 0, stream => .ok ([], stream)
  | k + 1, d0 :: d1 :: d2 :: rest =>
    if tripNan (post_prob (storeField logscale d0, storeField logscale d1, storeField logscale d2)) then
      .error .nanFound
    else
      match binRow logscale k rest with
      | .error e => .error e
      | .ok (ts, rest') =>
        .ok (post_prob (storeField logscale d0, storeField logscale d1, storeField logscale d2) :: ts, rest')
  | _ + 1, _ => .error .truncated

/-- The binary-mode site loop of `read_geno`, counting down the remaining
sites while tracking the current site index `s`. -/
def readGenoBinAux (logscale : Bool) (n_ind : ℕ) :
    ℕ → ℕ → Mat → (ℕ → Bool) → List DVal → Except GenoErr (Mat × (ℕ → Bool) × List DVal)
  | 0, _, mat, wr, stream => .ok (mat, wr, stream)
  | k + 1, s, mat, wr, stream =>
    match binRow logscale n_ind stream with
    | .error e => .error e
    | .ok (row, rest) =>
      readGenoBinAux logscale n_ind k (s + 1) (setRow mat s row) (setWr wr s) rest

/-- A GENO input file: a text file (list of lines) or a binary file (the
sequence of doubles `gzread` delivers).  The `in_bin` argument of the C
function is determined by which kind was opened. -/
inductive GenoFile where
  | text : List GLine → GenoFile
  | bin : List DVal → GenoFile

/-- Result of a successful `read_geno` call: the matrix, the ghost record
of which sites a data row populated, and the returned value of the
`in_logscale` in/out flag. -/
structure GenoResult where
  geno : Mat
  written : ℕ → Bool
  in_logscale : Bool

/-- The loader `read_geno`: run the per-site loop, then probe one more byte
and fail with the not-at-EOF error unless the stream is exhausted; on
success `*in_logscale` is set to true. -/
def read_geno (file : GenoFile) (probs logscale : Bool) (n_ind n_sites : ℕ) :
    Except GenoErr GenoResult :=
  match file with
  | .text lines =>
    match readGenoText probs logscale n_ind n_sites 1 initMat (fun _ => false) lines with
    | .error e => .error e
    | .ok (mat, wr, rest) =>
      if rest.isEmpty then .ok ⟨mat, wr, true⟩ else .error .trailingData
  | .bin stream =>
    match readGenoBinAux logscale n_ind n_sites 1 initMat (fun _ => false) stream with
    | .error e => .error e
    | .ok (mat, wr, rest) =>
      if rest.isEmpty then .ok ⟨mat, wr, true⟩ else .error .trailingData

/-- Is an `Except` value a success? -/
def isOkE {α β : Type} : Except α β → Bool
  | .ok _ => true
  | .error _ => false

/-- Triple stored at `[i][s]` of a `read_geno` result (sentinel for a
failed call; only used together with `isOkE`). -/
def genoAt (r : Except GenoErr GenoResult) (i s : ℕ) : Trip :=
  match r with
  | .ok g => g.geno i s
  | .error _ => (.pinf, .pinf, .pinf)

/-- Ghost populated-flag of site `s` of a `read_geno` result. -/
def writAt (r : Except GenoErr GenoResult) (s : ℕ) : Bool :=
  match r with
  | .ok g => g.written s
  | .error _ => false

/-- Returned `in_logscale` flag of a `read_geno` result (false for a
failed call; only used together with `isOkE`). -/
def flagAt (r : Except GenoErr GenoResult) : Bool :=
  match r with
  | .ok g => g.in_logscale
  | .error _ => false

/-- Digits-to-number accumulator used by the token parsers. -/
def digitsToNat (ds : List Char) : ℕ :=
  ds.foldl (fun a c => a * 10 + (c.toNat - 48)) 0

/-- Strip one leading sign character, returning whether it was a minus and
the remaining characters. -/
def splitSign : List Char → Bool × List Char
  | [] => (false, [])
  | c :: r =>
    if c = '-' then (true, r) else (if c = '+' then (false, r) else (false, c :: r))

/-- Digits of a fractional part: the digits right after a leading dot. -/
def fracPart : List Char → List Char
  | [] => []
  | c :: r => if c = '.' then r.takeWhile Char.isDigit else []

/-- Modelled from the spec: the C library `strtod` prefix parse applied to
one whitespace-split token (optional sign, decimal digits, optional
fractional part; a token with no leading digits parses to 0 — the header
heuristic's "non-numeric header token landing in that column").  Hex,
exponent and inf/nan spellings are not modelled. -/
def strtod (tok : String) : ℚ :=
  let sc := splitSign tok.toList
  let ip := sc.2.takeWhile Char.isDigit
  let fp := fracPart (sc.2.dropWhile Char.isDigit)
  let v : ℚ := (digitsToNat ip : ℚ) + (digitsToNat fp : ℚ) / ((10 : ℚ) ^ fp.length)
  if sc.1 then -v else v

/-- Modelled from the spec: `strtoul(tok, NULL, 0)` reading an unsigned
position — the leading decimal digits of the token (sign wrap-around and
base prefixes are not modelled). -/
def strtoul (tok : String) : ℕ :=
  digitsToNat (tok.toList.takeWhile Char.isDigit)

/-- Errors surfaced by `read_pos`, plus `oobAccess`: the guarded embedding's
outcome for the unguarded C read of `tmp[1]` on a one-field line. -/
inductive PosErr where
  | truncated : PosErr
  | fmtError : PosErr
  | invalidDist : PosErr
  | oobAccess : PosErr
  | trailingData : PosErr
deriving DecidableEq, Repr

/-- A position text line after `chomp` and `split`: emptiness flag and the
whitespace-split tokens kept as strings. -/
structure PLine where
  emptyLine : Bool
  fields : List String
deriving DecidableEq, Repr

/-- Loop state of `read_pos`: the distance array (allocated to `+INFINITY`),
the tracked chromosome (`prev_chr`, initially empty) and position
(`prev_pos`, initially 0). -/
structure PosState where
  dist : ℕ → DVal
  prev_chr : String
  prev_pos : ℕ

/-- Write one distance entry. -/
def setDist (d : ℕ → DVal) (s : ℕ) (v : DVal) : ℕ → DVal :=
  fun s' => if s' = s then v else d s'

/-- One iteration of the `read_pos` site loop after the line for site `s`
has been read.  The returned Bool records whether the `for` increment
advances `s` to a fresh site (true for empty lines — `continue` still runs
`s++` — and for data rows) or whether `s--` cancelled it (headers).
The header heuristic `!n_fields || strtod(tmp[1], NULL) == 0` dereferences
`tmp[1]` whenever there is at least one field, before the `n_fields < 2`
check; on a one-field line that read is out of bounds, which the guarded
embedding reports as `oobAccess`. -/
def posStep (st : PosState) (s : ℕ) (L : PLine) : Except PosErr (PosState × Bool) :=
  if L.emptyLine then .ok (st, true)
  else if L.fields.isEmpty then .ok (st, false)
  else
    match L.fields.get? 1 with
    | none => .error .oobAccess
    | some f1 =>
      if strtod f1 = 0 then .ok (st, false)
      else if L.fields.length < 2 then .error .fmtError
      else
        let c := L.fields.getD 0 ""
        let pc := if st.prev_chr = "" then c else st.prev_chr
        if pc = c then
          if strtod f1 - (st.prev_pos : ℚ) < 1 then .error .invalidDist
          else .ok (⟨setDist st.dist s (.fin (strtod f1 - (st.prev_pos : ℚ))), pc, strtoul f1⟩, true)
        else .ok (⟨setDist st.dist s .pinf, c, strtoul f1⟩, true)

/-- The site loop of `read_pos` (`for s = 1..n_sites`); running out of
lines while `s <= n_sites` is the `gzgets == NULL` error. -/
def posLoop (n_sites : ℕ) : ℕ → PosState → List PLine → Except PosErr (PosState × List PLine)
  | s, st, [] => if n_sites < s then .ok (st, []) else .error .truncated
  | s, st, L :: rest =>
    if n_sites < s then .ok (st, L :: rest)
    else
      match posStep st s L with
      | .error e => .error e
      | .ok (st', adv) => posLoop n_sites (if adv then s + 1 else s) st' rest

/-- Initial `read_pos` state: `init_ptr(n_sites+1, INFINITY)`, empty
`prev_chr`, `prev_pos = 0`. -/
def initPos : PosState := ⟨fun _ => .pinf, "", 0⟩

/-- The loader `read_pos`: run the site loop, then probe one more byte and
fail with the not-at-EOF error unless the stream is exhausted. -/
def read_pos (n_sites : ℕ) (lines : List PLine) : Except PosErr (ℕ → DVal) :=
  match posLoop n_sites 1 initPos lines with
  | .error e => .error e
  | .ok (st, rest) => if rest.isEmpty then .ok st.dist else .error .trailingData

/-- Distance entry `s` of a `read_pos` result (NaN sentinel for a failed
call; only used together with `isOkE`). -/
def distOf (r : Except PosErr (ℕ → DVal)) (s : ℕ) : DVal :=
  match r with
  | .ok d => d s
  | .error _ => .nan

/-- Hypothesis shape for the amended genotype invariant: every
probabilistic-mode data row of the text input must carry, for each
individual, a pre-normalization triple that is finite with nonzero sum
(ruling out, e.g., an all-zero probability triple). -/
def goodLine (logscale : Bool) (n_ind : ℕ) (L : GLine) : Prop :=
  L.emptyLine = false → L.fields ≠ [] → n_ind * 3 ≤ L.fields.length →
    ∀ i < n_ind, goodPre (probTrip logscale (L.fields.drop (L.fields.length - n_ind * 3)) i)

theorem isFin_iff (x : DVal) : x.isFin = true ↔ ∃ a, x = .fin a := by
  cases x <;> simp [DVal.isFin]

theorem padd_fin (a b : ℚ) : padd (.fin a) (.fin b) = .fin (a + b) := rfl

theorem pdiv_fin_ne (a b : ℚ) (hb : b ≠ 0) : pdiv (.fin a) (.fin b) = .fin (a / b) := by
  simp [pdiv, hb]

theorem tripNan_fin (a b c : ℚ) : tripNan (.fin a, .fin b, .fin c) = false := by
  simp [tripNan]

theorem post_prob_fin (a b c : ℚ) (hσ : a + b + c ≠ 0) :
    post_prob (.fin a, .fin b, .fin c) =
      (.fin (a / (a + b + c)), .fin (b / (a + b + c)), .fin (c / (a + b + c))) := by
  simp only [post_prob, tripSum, padd_fin]
  rw [pdiv_fin_ne a (a + b + c) hσ, pdiv_fin_ne b (a + b + c) hσ,
    pdiv_fin_ne c (a + b + c) hσ]

/-- A cleanly normalizable triple normalizes to probability mass exactly 1
with no NaN component. -/
theorem post_prob_good (t : Trip) (h : goodPre t) :
    tripSum (post_prob t) = .fin 1 ∧ tripNan (post_prob t) = false := by
  obtain ⟨hf, hs⟩ := h
  rcases t with ⟨x, y, z⟩
  simp only [allFin, Bool.and_eq_true] at hf
  obtain ⟨⟨hx, hy⟩, hz⟩ := hf
  obtain ⟨a, rfl⟩ := (isFin_iff x).1 hx
  obtain ⟨b, rfl⟩ := (isFin_iff y).1 hy
  obtain ⟨c, rfl⟩ := (isFin_iff z).1 hz
  have hσ : a + b + c ≠ 0 := by
    intro h0
    apply hs
    simp only [tripSum, padd_fin]
    exact congrArg DVal.fin h0
  rw [post_prob_fin a b c hσ]
  refine ⟨?_, tripNan_fin _ _ _⟩
  simp only [tripSum, padd_fin]
  congr 1
  field_simp

theorem nanfree_fin (a b c : ℚ) (ha : 0 ≤ a) (hb : 0 ≤ b) (hc : 0 ≤ c)
    (h : tripNan (post_prob (.fin a, .fin b, .fin c)) = false) :
    a + b + c ≠ 0 := by
  intro h0
  have ha0 : a = 0 := by linarith
  have hb0 : b = 0 := by linarith
  have hc0 : c = 0 := by linarith
  subst ha0
  subst hb0
  subst hc0
  simp [post_prob, tripSum, padd, pdiv, tripNan] at h

/-- Soundness of the binary branch's NaN check: if a well-formed
probability triple normalizes with no NaN, it was cleanly normalizable. -/
theorem post_prob_nanfree (x y z : DVal) (hw : wfTrip (x, y, z))
    (h : tripNan (post_prob (x, y, z)) = false) : goodPre (x, y, z) := by
  obtain ⟨hwx, hwy, hwz⟩ := hw
  cases x <;> cases y <;> cases z
  case fin.fin.fin a b c =>
    simp only [wfProb, decide_eq_true_eq] at hwx hwy hwz
    have hσ : a + b + c ≠ 0 := nanfree_fin a b c hwx hwy hwz h
    refine ⟨by simp [allFin, DVal.isFin], ?_⟩
    simp only [tripSum, padd_fin]
    intro hc
    injection hc with hc'
    exact hσ hc'
  all_goals exfalso
  all_goals revert h
  all_goals simp [post_prob, tripSum, padd, pdiv, tripNan]

theorem storeField_wf (logscale : Bool) (f : DVal) (h : logscale = true → wfProb f = true) :
    wfProb (storeField logscale f) = true := by
  cases logscale
  case true => simpa [storeField] using h rfl
  case false =>
    cases f with
    | nan => simp [storeField, logImage, wfProb]
    | pinf => simp [storeField, logImage, wfProb]
    | ninf => simp [storeField, logImage, wfProb]
    | fin q =>
      by_cases hq : q < 0
      · simp [storeField, logImage, wfProb, hq]
      · simp [storeField, logImage, wfProb, hq]
        try linarith

theorem getD_wf : ∀ (ptr : List DVal) (k : ℕ), (∀ d ∈ ptr, wfProb d = true) →
    wfProb (ptr.getD k .nan) = true
  | [], _, _ => by simp [wfProb]
  | d :: ptr, 0, h => by simpa using h d (by simp)
  | d :: ptr, k + 1, h => by
    simpa using getD_wf ptr k (fun x hx => h x (by simp [hx]))

theorem probTrip_wf (logscale : Bool) (ptr : List DVal) (i : ℕ)
    (h : logscale = true → ∀ d ∈ ptr, wfProb d = true) :
    wfTrip (probTrip logscale ptr i) := by
  refine ⟨?_, ?_, ?_⟩ <;>
    exact storeField_wf logscale _ (fun hl => getD_wf ptr _ (h hl))

theorem goodPre_mk (a b c : ℚ) (h : a + b + c ≠ 0) : goodPre (.fin a, .fin b, .fin c) := by
  refine ⟨by simp [allFin, DVal.isFin], ?_⟩
  simp only [tripSum, padd_fin]
  intro hc
  injection hc with hc'
  exact h hc'

theorem discGeno_good (f : DVal) (t : Trip) (h : discGeno f = .ok t) : goodPre t := by
  unfold discGeno at h
  split_ifs at h <;> simp only [Except.ok.injEq, reduceCtorEq] at h <;> subst h
  · exact goodPre_mk 1 0 0 (by norm_num)
  · exact goodPre_mk 0 1 0 (by norm_num)
  · exact goodPre_mk 0 0 1 (by norm_num)
  · exact goodPre_mk (1/3) (1/3) (1/3) (by norm_num)

theorem indTrip_good (probs logscale : Bool) (ptr : List DVal) (i : ℕ) (t : Trip)
    (hp : probs = true → goodPre (probTrip logscale ptr i))
    (h : indTrip probs logscale ptr i = .ok t) :
    tripSum t = .fin 1 ∧ tripNan t = false := by
  cases probs
  case true =>
    unfold indTrip at h
    simp only [if_pos, Except.ok.injEq] at h
    subst h
    exact post_prob_good _ (hp rfl)
  case false =>
    unfold indTrip at h
    rw [if_neg Bool.false_ne_true] at h
    cases hd : discGeno (ptr.getD i .nan) with
    | error e => rw [hd] at h; cases h
    | ok t0 =>
      rw [hd] at h
      simp only [Except.ok.injEq] at h
      subst h
      exact post_prob_good t0 (discGeno_good _ _ hd)

theorem rowTripsFrom_length (probs logscale : Bool) (ptr : List DVal) :
    ∀ (k i : ℕ) (ts : List Trip),
    rowTripsFrom probs logscale ptr i k = .ok ts → ts.length = k := by
  intro k
  induction k with
  | zero =>
    intro i ts h
    rw [rowTripsFrom] at h
    simp only [Except.ok.injEq] at h
    subst h
    rfl
  | succ k ih =>
    intro i ts h
    rw [rowTripsFrom] at h
    cases h1 : indTrip probs logscale ptr i with
    | error e => rw [h1] at h; cases h
    | ok t =>
      rw [h1] at h
      cases h2 : rowTripsFrom probs logscale ptr (i + 1) k with
      | error e => rw [h2] at h; cases h
      | ok ts' =>
        rw [h2] at h
        simp only [Except.ok.injEq] at h
        subst h
        simpa using ih (i + 1) ts' h2

theorem rowTripsFrom_good (probs logscale : Bool) (ptr : List DVal) :
    ∀ (k i : ℕ) (ts : List Trip),
    (∀ j, i ≤ j → j < i + k → probs = true → goodPre (probTrip logscale ptr j)) →
    rowTripsFrom probs logscale ptr i k = .ok ts →
    ∀ t ∈ ts, tripSum t = .fin 1 ∧ tripNan t = false := by
  intro k
  induction k with
  | zero =>
    intro i ts _ h
    rw [rowTripsFrom] at h
    simp only [Except.ok.injEq] at h
    subst h
    intro t ht
    cases ht
  | succ k ih =>
    intro i ts hg h
    rw [rowTripsFrom] at h
    cases h1 : indTrip probs logscale ptr i with
    | error e => rw [h1] at h; cases h
    | ok t0 =>
      rw [h1] at h
      cases h2 : rowTripsFrom probs logscale ptr (i + 1) k with
      | error e => rw [h2] at h; cases h
      | ok ts' =>
        rw [h2] at h
        simp only [Except.ok.injEq] at h
        subst h
        intro t ht
        rcases List.mem_cons.1 ht with rfl | ht'
        · exact indTrip_good probs logscale ptr i t
            (hg i (le_refl i) (by omega)) h1
        · exact ih (i + 1) ts' (fun j hj1 hj2 => hg j (by omega) (by omega)) h2 t ht'

/-- Invariant carried through the site loops: every populated entry of the
matrix holds a normalized, NaN-free probability triple. -/
def GoodMat (n_ind : ℕ) (mat : Mat) (wr : ℕ → Bool) : Prop :=
  ∀ i s, i < n_ind → wr s = true →
    tripSum (mat i s) = .fin 1 ∧ tripNan (mat i s) = false

theorem getD_mem {α : Type} : ∀ (l : List α) (n : ℕ) (d : α), n < l.length → l.getD n d ∈ l
  | a :: l, 0, d, _ => by simp
  | a :: l, n + 1, d, h => by
    have hm := getD_mem l n d (by simpa using h)
    rw [List.getD_cons_succ]
    exact List.mem_cons_of_mem a hm

theorem setRow_good (n_ind : ℕ) (mat : Mat) (wr : ℕ → Bool) (s : ℕ) (row : List Trip)
    (hm : GoodMat n_ind mat wr) (hlen : row.length = n_ind)
    (hrow : ∀ t ∈ row, tripSum t = .fin 1 ∧ tripNan t = false) :
    GoodMat n_ind (setRow mat s row) (setWr wr s) := by
  intro i s' hi hw
  by_cases hs : s' = s
  · subst hs
    have hib : i < row.length := by rw [hlen]; exact hi
    have hval : setRow mat s' row i s' = row.getD i (.fin 0, .fin 0, .fin 0) := by
      simp [setRow, hib]
    rw [hval]
    exact hrow _ (getD_mem row i _ hib)
  · have hw' : wr s' = true := by simpa [setWr, hs] using hw
    have hval : setRow mat s row i s' = mat i s' := by simp [setRow, hs]
    rw [hval]
    exact hm i s' hi hw'

/-- The text-mode site loop preserves the normalization invariant provided
every probabilistic data row normalizes cleanly. -/
theorem readGenoText_good (probs logscale : Bool) (n_ind n_sites : ℕ) :
    ∀ (lines : List GLine) (s : ℕ) (mat : Mat) (wr : ℕ → Bool)
      (out : Mat × (ℕ → Bool) × List GLine),
    (probs = true → ∀ L ∈ lines, goodLine logscale n_ind L) →
    GoodMat n_ind mat wr →
    readGenoText probs logscale n_ind n_sites s mat wr lines = .ok out →
    GoodMat n_ind out.1 out.2.1 := by
  intro lines
  induction lines with
  | nil =>
    intro s mat wr out _ hm h
    rw [readGenoText] at h
    split_ifs at h
    simp only [Except.ok.injEq] at h
    subst h
    exact hm
  | cons L rest ih =>
    intro s mat wr out hg hm h
    have hg' : probs = true → ∀ L' ∈ rest, goodLine logscale n_ind L' :=
      fun hp L' hL' => hg hp L' (List.mem_cons_of_mem _ hL')
    rw [readGenoText] at h
    by_cases h1 : n_sites < s
    · rw [if_pos h1] at h
      simp only [Except.ok.injEq] at h
      subst h
      exact hm
    · rw [if_neg h1] at h
      by_cases h2 : L.emptyLine = true
      · rw [if_pos h2] at h
        exact ih (s + 1) mat wr out hg' hm h
      · rw [if_neg h2] at h
        by_cases h3 : L.fields.isEmpty = true
        · rw [if_pos h3] at h
          exact ih s mat wr out hg' hm h
        · rw [if_neg h3] at h
          by_cases h4 : L.fields.length < n_ind * nGeno probs
          · rw [if_pos h4] at h
            cases h
          · rw [if_neg h4] at h
            cases hrow : rowTrips probs logscale n_ind
                (L.fields.drop (L.fields.length - n_ind * nGeno probs)) with
            | error e => rw [hrow] at h; cases h
            | ok row =>
              rw [hrow] at h
              refine ih (s + 1) _ _ out hg' ?_ h
              refine setRow_good n_ind mat wr s row hm
                (rowTripsFrom_length probs logscale _ n_ind 0 row hrow) ?_
              refine rowTripsFrom_good probs logscale _ n_ind 0 row ?_ hrow
              intro j _ hj2 hp
              subst hp
              have hng : nGeno true = 3 := rfl
              have hL := hg rfl L (List.mem_cons_self L rest)
              have hfe : L.emptyLine = false := by
                cases hLe : L.emptyLine
                · rfl
                · exact absurd hLe h2
              have hne : L.fields ≠ [] := by
                intro hc
                exact h3 (by simp [hc])
              have hlen : n_ind * 3 ≤ L.fields.length := by
                rw [← hng]
                omega
              have := hL hfe hne hlen j (by omega)
              simpa [hng] using this

/-- One binary site row yields normalized NaN-free triples (thanks to the
explicit NaN check), consumes a prefix of the stream, and its leftover
stream stays well-formed. -/
theorem binRow_good (logscale : Bool) :
    ∀ (k : ℕ) (stream : List DVal) (ts : List Trip) (rest : List DVal),
    (logscale = true → ∀ d ∈ stream, wfProb d = true) →
    binRow logscale k stream = .ok (ts, rest) →
    (∀ t ∈ ts, tripSum t = .fin 1 ∧ tripNan t = false) ∧
      (logscale = true → ∀ d ∈ rest, wfProb d = true) ∧ ts.length = k := by
  intro k
  induction k with
  | zero =>
    intro stream ts rest hw h
    rw [binRow] at h
    simp only [Except.ok.injEq, Prod.mk.injEq] at h
    obtain ⟨rfl, rfl⟩ := h
    exact ⟨fun t ht => absurd ht (List.not_mem_nil t), hw, rfl⟩
  | succ k ih =>
    intro stream ts rest hw h
    match stream with
    | [] => simp [binRow] at h
    | [d0] => simp [binRow] at h
    | [d0, d1] => simp [binRow] at h
    | d0 :: d1 :: d2 :: stream' =>
      rw [binRow] at h
      by_cases hnan : tripNan (post_prob
          (storeField logscale d0, storeField logscale d1, storeField logscale d2)) = true
      · rw [if_pos hnan] at h
        cases h
      · rw [if_neg hnan] at h
        have hw' : logscale = true → ∀ d ∈ stream', wfProb d = true :=
          fun hl d hd => hw hl d (by simp [hd])
        cases hb : binRow logscale k stream' with
        | error e => rw [hb] at h; cases h
        | ok p =>
          rcases p with ⟨ts', rest'⟩
          rw [hb] at h
          simp only [Except.ok.injEq, Prod.mk.injEq] at h
          obtain ⟨rfl, rfl⟩ := h
          obtain ⟨hg', hwrest, hlen⟩ := ih stream' ts' rest' hw' hb
          refine ⟨?_, hwrest, by simp [hlen]⟩
          intro t ht
          rcases List.mem_cons.1 ht with rfl | ht'
          · have hwt : wfTrip (storeField logscale d0, storeField logscale d1,
                storeField logscale d2) := by
              refine ⟨?_, ?_, ?_⟩ <;>
                exact storeField_wf logscale _ (fun hl => hw hl _ (by simp))
            have hgood := post_prob_nanfree _ _ _ hwt (by simpa using hnan)
            exact post_prob_good _ hgood
          · exact hg' t ht'

/-- The binary site loop preserves the normalization invariant. -/
theorem readGenoBinAux_good (logscale : Bool) (n_ind : ℕ) :
    ∀ (k s : ℕ) (mat : Mat) (wr : ℕ → Bool) (stream : List DVal)
      (out : Mat × (ℕ → Bool) × List DVal),
    (logscale = true → ∀ d ∈ stream, wfProb d = true) →
    GoodMat n_ind mat wr →
    readGenoBinAux logscale n_ind k s mat wr stream = .ok out →
    GoodMat n_ind out.1 out.2.1 := by
  intro k
  induction k with
  | zero =>
    intro s mat wr stream out _ hm h
    rw [readGenoBinAux] at h
    simp only [Except.ok.injEq] at h
    subst h
    exact hm
  | succ k ih =>
    intro s mat wr stream out hw hm h
    rw [readGenoBinAux] at h
    cases hb : binRow logscale n_ind stream with
    | error e => rw [hb] at h; cases h
    | ok p =>
      rcases p with ⟨row, rest⟩
      rw [hb] at h
      obtain ⟨hg, hwrest, hlen⟩ := binRow_good logscale n_ind stream row rest hw hb
      exact ih (s + 1) _ _ rest out hwrest (setRow_good n_ind mat wr s row hm hlen hg) h

/-- The probabilistic genotype text row "0 0 0" for one individual. -/
def zeroLine : GLine := ⟨false, [.fin 0, .fin 0, .fin 0]⟩

/-- The discrete genotype text row "0" for one individual. -/
def callLine : GLine := ⟨false, [.fin 0]⟩

/-- Position rows ("chr1",100), ("chr1",150), ("chr2",10). -/
def demoPosLines : List PLine :=
  [⟨false, ["chr1", "100"]⟩, ⟨false, ["chr1", "150"]⟩, ⟨false, ["chr2", "10"]⟩]

/-- An empty position line followed by the row ("chr1",100). -/
def emptyThenRow : List PLine := [⟨true, []⟩, ⟨false, ["chr1", "100"]⟩]

/-- Two position rows but only one declared site. -/
def posTrail : List PLine := [⟨false, ["chr1", "100"]⟩, ⟨false, ["chr1", "150"]⟩]

/-- C10: in genotype text mode a whitespace-only line (non-empty after
newline removal, zero fields) takes the header branch — the site counter is
decremented and the line consumes no site slot, so dropping such a line
leaves the whole call unchanged — while a completely empty line takes the
empty-line branch, whose `continue` still runs the `s++` increment: the two
kinds of line follow different branches at the public interface. -/
theorem whitespace_vs_empty_line (probs logscale : Bool) (n_ind n_sites s : ℕ)
    (mat : Mat) (wr : ℕ → Bool) (rest : List GLine) (lines : List GLine)
    (hs : s ≤ n_sites) (hns : 1 ≤ n_sites) :
    readGenoText probs logscale n_ind n_sites s mat wr (⟨false, []⟩ :: rest) =
      readGenoText probs logscale n_ind n_sites s mat wr rest ∧
    readGenoText probs logscale n_ind n_sites s mat wr (⟨true, []⟩ :: rest) =
      readGenoText probs logscale n_ind n_sites (s + 1) mat wr rest ∧
    read_geno (.text (⟨false, []⟩ :: lines)) probs logscale n_ind n_sites =
      read_geno (.text lines) probs logscale n_ind n_sites := by
  have hskip : ∀ (s' : ℕ) (mat' : Mat) (wr' : ℕ → Bool) (rest' : List GLine),
      s' ≤ n_sites →
      readGenoText probs logscale n_ind n_sites s' mat' wr' (⟨false, []⟩ :: rest') =
        readGenoText probs logscale n_ind n_sites s' mat' wr' rest' := by
    intro s' mat' wr' rest' hs'
    rw [readGenoText]
    rw [if_neg (by omega)]
    simp
  have hemp : readGenoText probs logscale n_ind n_sites s mat wr (⟨true, []⟩ :: rest) =
      readGenoText probs logscale n_ind n_sites (s + 1) mat wr rest := by
    rw [readGenoText]
    rw [if_neg (by omega)]
    simp
  refine ⟨hskip s mat wr rest hs, hemp, ?_⟩
  simp only [read_geno]
  rw [hskip 1 initMat (fun _ => false) lines hns]

/-- C3 counterexample: with two declared sites, an empty first line followed
by the row ("chr1",100) loads successfully with the data row landing at
site 2 and site 1 left at its `+INFINITY` sentinel — so the empty line was
counted as a site and the site counter did advance, contradicting the claim
that the same site index is retried on the next line (which would have put
the row at site 1 and then failed for lack of a second row). -/
theorem empty_line_consumes_site_counterexample :
    isOkE (read_pos 2 emptyThenRow) = true ∧
    distOf (read_pos 2 emptyThenRow) 1 = .pinf ∧
    distOf (read_pos 2 emptyThenRow) 2 = .fin 100 := by
  refine ⟨?_, ?_, ?_⟩ <;>
  · simp [read_pos, posLoop, posStep, initPos, setDist, emptyThenRow, distOf, isOkE,
      strtod, strtoul, splitSign, fracPart, digitsToNat]
    try norm_num [setDist]

/-- C3 (amended): both loaders skip an empty line's content (no state
change, nothing stored), but the `continue` statement still runs the `for`
loop's `s++` increment, so the empty line consumes its site index and that
site keeps its preallocated sentinel values; the site counter does advance. -/
theorem empty_line_advances_counter_amended (st : PosState) (s : ℕ)
    (probs logscale : Bool) (n_ind n_sites s' : ℕ) (mat : Mat) (wr : ℕ → Bool)
    (rest : List GLine) (prest : List PLine) (n_sites' : ℕ)
    (hs : s' ≤ n_sites') :
    posStep st s ⟨true, []⟩ = .ok (st, true) ∧
    (s ≤ n_sites → posLoop n_sites s st (⟨true, []⟩ :: prest) =
      posLoop n_sites (s + 1) st prest) ∧
    readGenoText probs logscale n_ind n_sites' s' mat wr (⟨true, []⟩ :: rest) =
      readGenoText probs logscale n_ind n_sites' (s' + 1) mat wr rest := by
  refine ⟨rfl, ?_, ?_⟩
  · intro hsn
    rw [posLoop]
    rw [if_neg (by omega)]
    rfl
  · rw [readGenoText]
    rw [if_neg (by omega)]
    simp

/-- C9: the position loader's header heuristic reads `tmp[1]` before the
two-field check, so a non-empty line that tokenizes to exactly one field
triggers an unguarded out-of-bounds read (an error in the guarded
embedding); consequently the fewer-than-two-fields `FormatError` branch can
only be reached by a line with at least one field that survived the header
heuristic. -/
theorem pos_header_oob_access (st : PosState) (s : ℕ) (L : PLine) :
    (L.emptyLine = false → L.fields.length = 1 → posStep st s L = .error .oobAccess) ∧
    (posStep st s L = .error .fmtError →
      1 ≤ L.fields.length ∧ L.fields.isEmpty = false ∧
        ∀ f1, L.fields.get? 1 = some f1 → strtod f1 ≠ 0) := by
  constructor
  · intro he hlen
    obtain ⟨f0, hf⟩ := List.length_eq_one.1 hlen
    rcases L with ⟨e, fs⟩
    simp only at he hf
    subst he
    subst hf
    rfl
  · intro h
    exfalso
    unfold posStep at h
    split at h
    · cases h
    · split at h
      · cases h
      · split at h
        · simp at h
        · rename_i f1 hsome
          split at h
          · cases h
          · rename_i hh
            split at h
            · rename_i hlt
              have h2 : 1 < L.fields.length := by
                by_contra hc
                have : L.fields.get? 1 = none := List.get?_eq_none.2 (by omega)
                rw [this] at hsome
                cases hsome
              omega
            · by_cases hpc : (if st.prev_chr = "" then L.fields.getD 0 ""
                  else st.prev_chr) = L.fields.getD 0 ""
              · rw [if_pos hpc] at h
                by_cases hd : strtod f1 - (st.prev_pos : ℚ) < 1
                · rw [if_pos hd] at h
                  simp at h
                · rw [if_neg hd] at h
                  simp at h
              · rw [if_neg hpc] at h
                simp at h

/-- C8: whenever `read_geno` returns successfully — either file kind,
either probability mode, and whatever the in/out scale flag held on entry —
the returned `in_logscale` flag is true. -/
theorem logscale_flag_set_on_return (file : GenoFile) (probs logscale : Bool)
    (n_ind n_sites : ℕ) (r : GenoResult)
    (h : read_geno file probs logscale n_ind n_sites = .ok r) :
    r.in_logscale = true := by
  cases file with
  | text lines =>
    simp only [read_geno] at h
    split at h
    · cases h
    · split at h
      · injection h with h'
        rw [← h']
      · cases h
  | bin stream =>
    simp only [read_geno] at h
    split at h
    · cases h
    · split at h
      · injection h with h'
        rw [← h']
      · cases h

/-- C7: a non-header, non-empty genotype text line with fewer than
`n_ind * n_geno` fields is a fatal format error; with enough fields only
the trailing `n_ind * n_geno` fields are consumed, so prepending extra
leading fields to such a data row leaves the call unchanged. -/
theorem geno_field_count_and_trailing_window (probs logscale : Bool)
    (n_ind n_sites s : ℕ) (mat : Mat) (wr : ℕ → Bool) (f : List DVal)
    (rest : List GLine) (hs : s ≤ n_sites) (hne : f ≠ []) :
    (f.length < n_ind * nGeno probs →
      readGenoText probs logscale n_ind n_sites s mat wr (⟨false, f⟩ :: rest) =
        .error .fewFields) ∧
    (n_ind * nGeno probs ≤ f.length → ∀ pre : List DVal,
      readGenoText probs logscale n_ind n_sites s mat wr (⟨false, pre ++ f⟩ :: rest) =
        readGenoText probs logscale n_ind n_sites s mat wr (⟨false, f⟩ :: rest)) := by
  have hie1 : f.isEmpty = false := by
    cases f
    · exact absurd rfl hne
    · rfl
  constructor
  · intro hlt
    rw [readGenoText]
    rw [if_neg (by omega)]
    simp [hie1, hlt]
  · intro hge pre
    have hne2 : pre ++ f ≠ [] := by
      intro hc
      rcases List.append_eq_nil.1 hc with ⟨_, h2⟩
      exact hne h2
    have hie2 : (pre ++ f).isEmpty = false := by
      cases hpf : pre ++ f
      · exact absurd hpf hne2
      · rfl
    have hlen2 : ¬ ((pre ++ f).length < n_ind * nGeno probs) := by
      rw [List.length_append]
      omega
    have hlen1 : ¬ (f.length < n_ind * nGeno probs) := by omega
    have hdrop : (pre ++ f).drop ((pre ++ f).length - n_ind * nGeno probs) =
        f.drop (f.length - n_ind * nGeno probs) := by
      rw [List.length_append]
      rw [show pre.length + f.length - n_ind * nGeno probs
          = pre.length + (f.length - n_ind * nGeno probs) by omega]
      exact List.drop_append _
    simp only [List.length_append] at hlen2 hdrop
    rw [readGenoText]
    conv_rhs => rw [readGenoText]
    rw [if_neg (Nat.not_lt.mpr hs)]
    rw [if_neg (Nat.not_lt.mpr hs)]
    simp [hie1, hie2, hlen1, hlen2, hdrop]

/-- C4: in discrete-call text mode the field value truncated to integer `g`
drives the assignment: `g ∈ {0,1,2}` sets class `g` to `log 1` (image `1`)
on top of the `-INF` sentinels (image `0`) and the triple is renormalized;
`g > 2` (any other nonnegative code) is the fatal bad-genotype error; and
`g < 0` stores the uniform `log (1/3)` triple, also renormalized. -/
theorem discrete_genotype_coding (logscale : Bool) (ptr : List DVal) (i : ℕ) (q : ℚ)
    (hf : ptr.getD i .nan = .fin q) :
    (ctrunc q = 0 → indTrip false logscale ptr i =
      .ok (post_prob (.fin 1, .fin 0, .fin 0))) ∧
    (ctrunc q = 1 → indTrip false logscale ptr i =
      .ok (post_prob (.fin 0, .fin 1, .fin 0))) ∧
    (ctrunc q = 2 → indTrip false logscale ptr i =
      .ok (post_prob (.fin 0, .fin 0, .fin 1))) ∧
    (2 < ctrunc q → indTrip false logscale ptr i = .error .badGenotype) ∧
    (ctrunc q < 0 → indTrip false logscale ptr i =
      .ok (post_prob (.fin (1/3), .fin (1/3), .fin (1/3)))) := by
  have hind : indTrip false logscale ptr i =
      (match discGeno (.fin q) with
      | .error e => .error e
      | .ok t => .ok (post_prob t)) := by
    unfold indTrip
    rw [if_neg Bool.false_ne_true, hf]
  refine ⟨?_, ?_, ?_, ?_, ?_⟩ <;> intro hg <;> rw [hind]
  · simp [discGeno, dtruncInt, hg]
  · simp [discGeno, dtruncInt, hg]
  · simp [discGeno, dtruncInt, hg]
  · have h1 : 0 ≤ ctrunc q := by omega
    have h2 : ¬ (ctrunc q = 0) := by omega
    simp [discGeno, dtruncInt, hg, h1, h2]
  · have h1 : ¬ (0 ≤ ctrunc q) := by omega
    simp [discGeno, dtruncInt, h1]

/-- C5: for a data row of the position loader (the header heuristic not
triggered), when the row's chromosome equals the tracked one the stored
distance is the parsed position minus the previous position, with the
invalid-distance error raised exactly when that difference is below 1; when
the chromosome differs from an established tracked one the distance is
`+INFINITY` and the tracked chromosome is replaced; and `prev_pos` is
updated to the row's parsed position in both successful branches. -/
theorem pos_row_distance_update (st : PosState) (s : ℕ) (c p : String)
    (r : List String) (hdr : strtod p ≠ 0) :
    (st.prev_chr = c →
      ((strtod p - (st.prev_pos : ℚ) < 1 →
        posStep st s ⟨false, c :: p :: r⟩ = .error .invalidDist) ∧
       (¬ strtod p - (st.prev_pos : ℚ) < 1 →
        posStep st s ⟨false, c :: p :: r⟩ =
          .ok (⟨setDist st.dist s (.fin (strtod p - (st.prev_pos : ℚ))), c, strtoul p⟩,
            true)))) ∧
    (st.prev_chr ≠ "" → st.prev_chr ≠ c →
      posStep st s ⟨false, c :: p :: r⟩ =
        .ok (⟨setDist st.dist s .pinf, c, strtoul p⟩, true)) := by
  have hlen : ¬ ((c :: p :: r).length < 2) := by
    simp
  constructor
  · intro hc
    have hpc : (if st.prev_chr = "" then c else st.prev_chr) = c := by
      split_ifs
      · rfl
      · exact hc
    constructor
    · intro hd
      unfold posStep
      simp [hdr, hpc, hd, hlen]
    · intro hd
      unfold posStep
      simp [hdr, hpc, hd, hlen]
  · intro hne hneq
    have hpc : ¬ ((if st.prev_chr = "" then c else st.prev_chr) = c) := by
      rw [if_neg hne]
      exact hneq
    unfold posStep
    simp [hdr, hpc, hlen]

/-- C6: after the site loop completes, both loaders probe the stream one
more read and fail with the trailing-data error exactly when anything
remains unread; a stream with leftover rows past the declared site count
never returns successfully. -/
theorem trailing_data_check :
    (∀ (n_sites : ℕ) (lines : List PLine) (st : PosState) (rest : List PLine),
      posLoop n_sites 1 initPos lines = .ok (st, rest) →
      (rest = [] → read_pos n_sites lines = .ok st.dist) ∧
      (rest ≠ [] → read_pos n_sites lines = .error .trailingData)) ∧
    (∀ (probs logscale : Bool) (n_ind n_sites : ℕ) (lines : List GLine)
       (mat : Mat) (wr : ℕ → Bool) (rest : List GLine),
      readGenoText probs logscale n_ind n_sites 1 initMat (fun _ => false) lines
        = .ok (mat, wr, rest) →
      (rest = [] →
        read_geno (.text lines) probs logscale n_ind n_sites = .ok ⟨mat, wr, true⟩) ∧
      (rest ≠ [] →
        read_geno (.text lines) probs logscale n_ind n_sites = .error .trailingData)) ∧
    (∀ (probs logscale : Bool) (n_ind n_sites : ℕ) (stream : List DVal)
       (mat : Mat) (wr : ℕ → Bool) (rest : List DVal),
      readGenoBinAux logscale n_ind n_sites 1 initMat (fun _ => false) stream
        = .ok (mat, wr, rest) →
      (rest = [] →
        read_geno (.bin stream) probs logscale n_ind n_sites = .ok ⟨mat, wr, true⟩) ∧
      (rest ≠ [] →
        read_geno (.bin stream) probs logscale n_ind n_sites = .error .trailingData)) := by
  refine ⟨?_, ?_, ?_⟩
  · intro n_sites lines st rest h
    constructor
    · intro hr
      subst hr
      unfold read_pos
      rw [h]
      rfl
    · intro hr
      have hie : rest.isEmpty = false := by
        cases rest
        · exact absurd rfl hr
        · rfl
      unfold read_pos
      rw [h]
      simp [hie]
  · intro probs logscale n_ind n_sites lines mat wr rest h
    constructor
    · intro hr
      subst hr
      simp only [read_geno]
      rw [h]
      rfl
    · intro hr
      have hie : rest.isEmpty = false := by
        cases rest
        · exact absurd rfl hr
        · rfl
      simp only [read_geno]
      rw [h]
      simp [hie]
  · intro probs logscale n_ind n_sites stream mat wr rest h
    constructor
    · intro hr
      subst hr
      simp only [read_geno]
      rw [h]
      rfl
    · intro hr
      have hie : rest.isEmpty = false := by
        cases rest
        · exact absurd rfl hr
        · rfl
      simp only [read_geno]
      rw [h]
      simp [hie]

/-- C2 counterexample: on the rows ("chr1",100), ("chr1",150), ("chr2",10)
with three declared sites the loader succeeds, but distance[1] is 100
rather than the claimed `+infinity`: the first data row copies its
chromosome into `prev_chr` and then falls into the equal-chromosome branch,
storing position − prev_pos = 100 − 0. -/
theorem pos_first_site_distance_counterexample :
    isOkE (read_pos 3 demoPosLines) = true ∧
    distOf (read_pos 3 demoPosLines) 1 = .fin 100 ∧
    distOf (read_pos 3 demoPosLines) 1 ≠ .pinf := by
  refine ⟨?_, ?_, ?_⟩ <;>
  · simp [read_pos, posLoop, posStep, initPos, setDist, demoPosLines, distOf, isOkE,
      strtod, strtoul, splitSign, fracPart, digitsToNat]
    try norm_num [setDist]
    try simp [setDist]
    try norm_num [setDist]

/-- C2 (amended): `distance[s]` is `+infinity` for the first site of a new
chromosome once a previous chromosome is tracked; the first data row
overall instead takes the equal-chromosome branch (the tracked name was
just copied from it) and stores its parsed position minus the initial
`prev_pos = 0`; hence the rows ("chr1",100), ("chr1",150), ("chr2",10)
yield distances [100, 50, +infinity] for sites 1..3. -/
theorem pos_distance_sentinels_amended (st : PosState) (s : ℕ) (c p : String)
    (r : List String) (hdr : strtod p ≠ 0) :
    (st.prev_chr ≠ "" → st.prev_chr ≠ c →
      posStep st s ⟨false, c :: p :: r⟩ =
        .ok (⟨setDist st.dist s .pinf, c, strtoul p⟩, true)) ∧
    (st.prev_chr = "" → ¬ strtod p - (st.prev_pos : ℚ) < 1 →
      posStep st s ⟨false, c :: p :: r⟩ =
        .ok (⟨setDist st.dist s (.fin (strtod p - (st.prev_pos : ℚ))), c, strtoul p⟩,
          true)) ∧
    (isOkE (read_pos 3 demoPosLines) = true ∧
      distOf (read_pos 3 demoPosLines) 1 = .fin 100 ∧
      distOf (read_pos 3 demoPosLines) 2 = .fin 50 ∧
      distOf (read_pos 3 demoPosLines) 3 = .pinf) := by
  have hlen : ¬ ((c :: p :: r).length < 2) := by
    simp
  refine ⟨?_, ?_, ?_, ?_, ?_, ?_⟩
  · intro hne hneq
    have hpc : ¬ ((if st.prev_chr = "" then c else st.prev_chr) = c) := by
      rw [if_neg hne]
      exact hneq
    unfold posStep
    simp [hdr, hpc, hlen]
  · intro hpe hd
    have hpc : (if st.prev_chr = "" then c else st.prev_chr) = c := by
      rw [if_pos hpe]
    unfold posStep
    simp [hdr, hpc, hd, hlen]
  all_goals
  · simp [read_pos, posLoop, posStep, initPos, setDist, demoPosLines, distOf, isOkE,
      strtod, strtoul, splitSign, fracPart, digitsToNat]
    try norm_num [setDist]
    try simp [setDist]
    try norm_num [setDist]

/-- C1 counterexample: the probabilistic, linear-scale text row "0 0 0"
(one individual, one site) loads successfully — `read_geno`'s text branch
has no NaN check — yet the populated triple at individual 0, site 1 is all
NaN: `log 0 = -inf` three times, and the normalizer computes
`-inf - (-inf)`. -/
theorem geno_text_nan_escape :
    isOkE (read_geno (.text [zeroLine]) true false 1 1) = true ∧
    writAt (read_geno (.text [zeroLine]) true false 1 1) 1 = true ∧
    genoAt (read_geno (.text [zeroLine]) true false 1 1) 0 1 = (.nan, .nan, .nan) := by
  refine ⟨?_, ?_, ?_⟩ <;>
  · simp [read_geno, readGenoText, rowTrips, rowTripsFrom, indTrip, probTrip, storeField,
      logImage, post_prob, tripSum, padd, pdiv, zeroLine, nGeno, genoAt, writAt, isOkE,
      setRow, setWr, initMat]
    try norm_num

/-- C1 (amended): every (individual, site) triple populated by a successful
`read_geno` call sums to probability 1 and is NaN-free, in binary mode
unconditionally (the NaN check enforces it; log-scale binary input is
quantified over well-formed probability images), and in text mode provided
each probabilistic data row stores, for every individual, a finite triple
with nonzero mass (automatic in discrete-call mode); without that proviso a
text probabilistic row such as "0 0 0" escapes unchecked. -/
theorem geno_matrix_normalized_amended (file : GenoFile) (probs logscale : Bool)
    (n_ind n_sites : ℕ) (r : GenoResult)
    (hwf : ∀ stream, file = .bin stream → logscale = true → ∀ d ∈ stream, wfProb d = true)
    (hgood : ∀ lines, file = .text lines → probs = true →
      ∀ L ∈ lines, goodLine logscale n_ind L)
    (hok : read_geno file probs logscale n_ind n_sites = .ok r) :
    ∀ i s, i < n_ind → r.written s = true →
      tripSum (r.geno i s) = .fin 1 ∧ tripNan (r.geno i s) = false := by
  have hinit : GoodMat n_ind initMat (fun _ => false) :=
    fun _ _ _ hw => absurd hw Bool.false_ne_true
  cases file with
  | text lines =>
    simp only [read_geno] at hok
    split at hok
    · cases hok
    · rename_i mat wr rest heq
      have hg := readGenoText_good probs logscale n_ind n_sites lines 1 initMat
        (fun _ => false) (mat, wr, rest) (hgood lines rfl) hinit heq
      split at hok
      · injection hok with h'
        subst h'
        exact fun i s hi hw => hg i s hi hw
      · cases hok
  | bin stream =>
    simp only [read_geno] at hok
    split at hok
    · cases hok
    · rename_i mat wr rest heq
      have hg := readGenoBinAux_good logscale n_ind n_sites 1 initMat
        (fun _ => false) stream (mat, wr, rest) (hwf stream rfl) hinit heq
      split at hok
      · injection hok with h'
        subst h'
        exact fun i s hi hw => hg i s hi hw
      · cases hok

theorem whitespace_vs_empty_line_witness :
    readGenoText true true 1 1 1 initMat (fun _ => false) [⟨false, []⟩] =
      readGenoText true true 1 1 1 initMat (fun _ => false) [] :=
  (whitespace_vs_empty_line true true 1 1 1 initMat (fun _ => false) [] []
    (le_refl 1) (le_refl 1)).1

theorem empty_line_advances_counter_amended_witness :
    posStep initPos 1 ⟨true, []⟩ = .ok (initPos, true) :=
  (empty_line_advances_counter_amended initPos 1 true true 1 1 1 initMat
    (fun _ => false) [] [] 1 (le_refl 1)).1

theorem pos_header_oob_access_witness :
    posStep initPos 1 ⟨false, ["chr1"]⟩ = .error .oobAccess :=
  (pos_header_oob_access initPos 1 ⟨false, ["chr1"]⟩).1 rfl rfl

theorem geno_field_count_and_trailing_window_witness :
    readGenoText false true 2 1 1 initMat (fun _ => false) [⟨false, [.fin 0]⟩] =
      .error .fewFields :=
  (geno_field_count_and_trailing_window false true 2 1 1 initMat (fun _ => false)
    [.fin 0] [] (le_refl 1) (by simp)).1 (by simp [nGeno])

theorem discrete_genotype_coding_witness :
    indTrip false false [.fin 1] 0 = .ok (post_prob (.fin 0, .fin 1, .fin 0)) :=
  (discrete_genotype_coding false [.fin 1] 0 1 rfl).2.1 (by simp [ctrunc])

theorem pos_row_distance_update_witness :
    posStep ⟨fun _ => .pinf, "chr1", 100⟩ 2 ⟨false, ["chr1", "150"]⟩ =
      .ok (⟨setDist (fun _ => .pinf) 2 (.fin (strtod "150" - ((100 : ℕ) : ℚ))), "chr1",
        strtoul "150"⟩, true) :=
  ((pos_row_distance_update ⟨fun _ => .pinf, "chr1", 100⟩ 2 "chr1" "150" []
    (by simp [strtod, splitSign, fracPart, digitsToNat])).1 rfl).2
    (by simp [strtod, splitSign, fracPart, digitsToNat]; norm_num)

theorem pos_distance_sentinels_amended_witness :
    posStep ⟨fun _ => .pinf, "chr1", 150⟩ 3 ⟨false, ["chr2", "10"]⟩ =
      .ok (⟨setDist (fun _ => .pinf) 3 .pinf, "chr2", strtoul "10"⟩, true) :=
  (pos_distance_sentinels_amended ⟨fun _ => .pinf, "chr1", 150⟩ 3 "chr2" "10" []
    (by simp [strtod, splitSign, fracPart, digitsToNat])).1 (by simp) (by simp)

theorem trailing_data_check_witness :
    read_pos 1 posTrail = .error .trailingData := by
  have hok : posLoop 1 1 initPos posTrail =
      .ok (⟨setDist (fun _ => .pinf) 1 (.fin 100), "chr1", 100⟩,
        [⟨false, ["chr1", "150"]⟩]) := by
    simp [posLoop, posStep, initPos, setDist, posTrail,
      strtod, strtoul, splitSign, fracPart, digitsToNat]
    try norm_num [setDist]
    try simp [setDist]
    try norm_num [setDist]
  exact (trailing_data_check.1 1 posTrail _ _ hok).2 (by simp)

theorem logscale_flag_set_on_return_witness :
    flagAt (read_geno (.text [callLine]) false false 1 1) = true := by
  cases hok : read_geno (.text [callLine]) false false 1 1 with
  | error e =>
    have hko : isOkE (read_geno (.text [callLine]) false false 1 1) = true := by
      simp [read_geno, readGenoText, rowTrips, rowTripsFrom, indTrip, discGeno, dtruncInt,
        ctrunc, post_prob, tripSum, padd, pdiv, callLine, nGeno, isOkE, setRow, setWr,
        initMat]
    rw [hok] at hko
    cases hko
  | ok r =>
    have hflag := logscale_flag_set_on_return (.text [callLine]) false false 1 1 r hok
    simp [flagAt, hok, hflag]

theorem geno_matrix_normalized_amended_witness :
    tripSum (genoAt (read_geno (.text [callLine]) false false 1 1) 0 1) = .fin 1 ∧
    tripNan (genoAt (read_geno (.text [callLine]) false false 1 1) 0 1) = false := by
  cases hok : read_geno (.text [callLine]) false false 1 1 with
  | error e =>
    have hko : isOkE (read_geno (.text [callLine]) false false 1 1) = true := by
      simp [read_geno, readGenoText, rowTrips, rowTripsFrom, indTrip, discGeno, dtruncInt,
        ctrunc, post_prob, tripSum, padd, pdiv, callLine, nGeno, isOkE, setRow, setWr,
        initMat]
    rw [hok] at hko
    cases hko
  | ok r =>
    have hwr : r.written 1 = true := by
      have hw : writAt (read_geno (.text [callLine]) false false 1 1) 1 = true := by
        simp [read_geno, readGenoText, rowTrips, rowTripsFrom, indTrip, discGeno, dtruncInt,
          ctrunc, post_prob, tripSum, padd, pdiv, callLine, nGeno, writAt, setRow, setWr,
          initMat]
      rw [hok] at hw
      simpa [writAt] using hw
    have h := geno_matrix_normalized_amended (.text [callLine]) false false 1 1 r
      (fun stream hs => by cases hs)
      (fun lines hl hp => by cases hp)
      hok 0 1 (by norm_num) hwr
    simpa [genoAt, hok] using h
